import Mathlib

/-!
Verification of the mutual-match resolution backend.

Shallow embedding of `src/matching.py` and the parts of `src/database.py`
it calls.  The sqlite store is modelled as an explicit `DBState` record;
every database helper becomes a pure function on that state.  Python dicts
built by the comprehensions in `find_mutual_matches` are modelled as
association lists built with Python's insertion/update semantics
(`pyDict`), and the two nested `for` loops become structural recursions
(`innerLoop`, `outerLoop`) threading the `(matches, processed_pairs)`
state exactly as the source does.
-/

/-- A row of the `participants` table (`database.py`, `init_db`):
`id` is the `INTEGER PRIMARY KEY`; the remaining columns are carried but
never read by the matching algorithm. -/
structure Participant where
  id : Nat
  first_name : String
  gender : String
  email : String
  unique_token : String
deriving DecidableEq, Repr

/-- A row of the `selections` table: directed edge
`(selector_id, selected_id, rank)`.  The schema's
`UNIQUE(selector_id, selected_id)` constraint is stated separately as
`SelUnique` where a claim needs it. -/
structure Selection where
  selector_id : Nat
  selected_id : Nat
  rank : Nat
deriving DecidableEq, Repr

/-- One element of the list returned by `find_mutual_matches`
(`matching.py` lines 45–50): the four fields of the dict appended to
`matches`. -/
structure MatchPair where
  participant1_id : Nat
  participant2_id : Nat
  rank1 : Nat
  rank2 : Nat
deriving DecidableEq, Repr

/-- A row of the `matches` table: like `MatchPair` but with the
`AUTOINCREMENT` primary key `id`. -/
structure MatchRow where
  id : Nat
  participant1_id : Nat
  participant2_id : Nat
  rank1 : Nat
  rank2 : Nat
deriving DecidableEq, Repr

/-- The sqlite database state: the three tables plus the autoincrement
counter for `matches.id` (sqlite `AUTOINCREMENT` keeps growing across
`DELETE FROM matches`).  The `matches` table is named `matchRows` because
`matches` is a reserved word in Lean. -/
structure DBState where
  participants : List Participant
  selections : List Selection
  matchRows : List MatchRow
  next_match_id : Nat
deriving DecidableEq, Repr

/-- `database.py` `get_all_participants`:
`SELECT id, ... FROM participants ORDER BY id`. -/
def get_all_participants (db : DBState) : List Participant :=
  db.participants.insertionSort (fun p q => p.id ≤ q.id)

/-- `database.py` `get_selections_by_participant`:
`SELECT selected_id, rank FROM selections WHERE selector_id = ? ORDER BY rank`,
returned as `(selected_id, rank)` pairs. -/
def get_selections_by_participant (sels : List Selection) (pid : Nat) :
    List (Nat × Nat) :=
  ((sels.filter fun s => s.selector_id == pid).insertionSort
      (fun a b => a.rank ≤ b.rank)).map fun s => (s.selected_id, s.rank)

/-- `database.py` `clear_matches`: `DELETE FROM matches`. -/
def clear_matches (db : DBState) : DBState :=
  { db with matchRows := [] }

/-- `database.py` `add_match`: insert one row into `matches`, the
autoincrement counter supplying the new `id`. -/
def add_match (db : DBState) (p1 p2 r1 r2 : Nat) : DBState :=
  { db with
    matchRows := db.matchRows ++ [⟨db.next_match_id, p1, p2, r1, r2⟩],
    next_match_id := db.next_match_id + 1 }

/-- One update step of a Python dict build: assignment `d[k] = v` updates
the value in place when `k` is already a key (keeping its position) and
appends the binding otherwise. -/
def pyDictInsert (d : List (Nat × Nat)) (k v : Nat) : List (Nat × Nat) :=
  if d.any (fun p => p.1 == k) then
    d.map fun p => if p.1 == k then (k, v) else p
  else d ++ [(k, v)]

/-- A Python dict comprehension `{k: v for (k, v) in entries}`: bindings
inserted left to right, later bindings overwriting earlier values. -/
def pyDict (entries : List (Nat × Nat)) : List (Nat × Nat) :=
  entries.foldl (fun d p => pyDictInsert d p.1 p.2) []

/-- Key list of a dict, in insertion order (`d.keys()`). -/
def dictKeys (d : List (Nat × Nat)) : List Nat :=
  d.map (·.1)

/-- Python `k in d`. -/
def dictContains (d : List (Nat × Nat)) (k : Nat) : Bool :=
  d.any fun p => p.1 == k

/-- Python `d[k]`.  Every use in `find_mutual_matches` is guarded so the
key is present; the `getD 0` default is never reached there. -/
def dictGet (d : List (Nat × Nat)) (k : Nat) : Nat :=
  ((d.find? fun p => p.1 == k).map (·.2)).getD 0

/-- `matching.py` line 25/30: the dict
`{sel['selected_id']: sel['rank'] for sel in get_selections_by_participant(pid)}`. -/
def selections_dict (sels : List Selection) (pid : Nat) : List (Nat × Nat) :=
  pyDict (get_selections_by_participant sels pid)

/-- The inner `for selected_id in their_selections_dict.keys()` loop of
`find_mutual_matches` (`matching.py` lines 27–51), threading the state
`(matches, processed_pairs)`.  The source memoizes
`their_selections_dict` in a local variable; being a pure value it is
re-referenced here via `selections_dict sels participant_id`. -/
def innerLoop (sels : List Selection) (participant_id : Nat) :
    List Nat → List MatchPair × List (Nat × Nat) →
    List MatchPair × List (Nat × Nat)
  | [], st => st
  | selected_id :: rest, st =>
    let their_selections_dict := selections_dict sels participant_id
    let reverse_selections_dict := selections_dict sels selected_id
    let st' :=
      if dictContains reverse_selections_dict participant_id then
        let pair := (min participant_id selected_id,
                     max participant_id selected_id)
        if pair ∈ st.2 then st
        else
          let rank1 :=
            if pair.1 == participant_id then
              dictGet their_selections_dict selected_id
            else dictGet reverse_selections_dict participant_id
          let rank2 :=
            if pair.1 == participant_id then
              dictGet reverse_selections_dict participant_id
            else dictGet their_selections_dict selected_id
          (st.1 ++ [⟨pair.1, pair.2, rank1, rank2⟩], pair :: st.2)
      else st
    innerLoop sels participant_id rest st'

/-- The outer `for participant in participants` loop of
`find_mutual_matches` (`matching.py` lines 20–51). -/
def outerLoop (sels : List Selection) :
    List Nat → List MatchPair × List (Nat × Nat) →
    List MatchPair × List (Nat × Nat)
  | [], st => st
  | participant_id :: rest, st =>
    outerLoop sels rest
      (innerLoop sels participant_id
        (dictKeys (selections_dict sels participant_id)) st)

/-- `find_mutual_matches` as a function of the participant-id list and
the selections snapshot: both loops run from the empty
`(matches, processed_pairs)` state and the `matches` component is
returned. -/
def find_mutual_matches_core (participants : List Nat)
    (sels : List Selection) : List MatchPair :=
  (outerLoop sels participants ([], [])).1

/-- `matching.py` `find_mutual_matches`: the participant list comes from
`get_all_participants` and each row contributes its `id`. -/
def find_mutual_matches (db : DBState) : List MatchPair :=
  find_mutual_matches_core ((get_all_participants db).map (·.id))
    db.selections

/-- `matching.py` `run_matching_algorithm`: clear previous matches, find
mutual matches, store each, return the count. -/
def run_matching_algorithm (db : DBState) : Nat × DBState :=
  let db1 := clear_matches db
  let ms := find_mutual_matches db1
  let db2 := ms.foldl
    (fun d m => add_match d m.participant1_id m.participant2_id
      m.rank1 m.rank2) db1
  (ms.length, db2)

/-- `matches` row without its autoincrement `id`: the observable content
of a stored match. -/
def stripId (r : MatchRow) : MatchPair :=
  ⟨r.participant1_id, r.participant2_id, r.rank1, r.rank2⟩

/-- The schema's `UNIQUE(selector_id, selected_id)` constraint on the
`selections` table: at most one rank per directed pair. -/
def SelUnique (sels : List Selection) : Prop :=
  ∀ s ∈ sels, ∀ t ∈ sels,
    s.selector_id = t.selector_id → s.selected_id = t.selected_id →
      s.rank = t.rank

instance (sels : List Selection) : Decidable (SelUnique sels) := by
  unfold SelUnique
  infer_instance

/-- There is a stored selection from `a` to `b` (the test
`b in selections_dict(a)` performed by the algorithm). -/
def edge (sels : List Selection) (a b : Nat) : Bool :=
  dictContains (selections_dict sels a) b

/-- The match record the algorithm emits for the canonical pair `p`
(`p.1 ≤ p.2`): each side's rank read from that side's selection dict. -/
def mkRec (sels : List Selection) (p : Nat × Nat) : MatchPair :=
  ⟨p.1, p.2, dictGet (selections_dict sels p.1) p.2,
    dictGet (selections_dict sels p.2) p.1⟩

/-- The canonical (sorted) form of the pair `{a, b}`
(`tuple(sorted([participant_id, selected_id]))`). -/
def canon (a b : Nat) : Nat × Nat :=
  (min a b, max a b)

/-!
Failure-injecting model of the store.  `run_matching_algorithm` performs
a sequence of store calls: the `clear_matches` call, the
`get_all_participants` call, one `get_selections_by_participant` fetch
per listed participant plus one per key of that participant's selection
dict (`matching.py` lines 22 and 29 — the reverse fetch happens before
the mutuality test, so it is made for every key), and finally one
`add_match` per computed match.  The calls are numbered in execution
order and the call numbered `failAt` raises; every earlier call
succeeds.  `fuel` below is the countdown of calls that still succeed.
The `error` value carries the database state at the moment the
exception propagates out of `run_matching_algorithm`: reads leave the
state untouched, and each earlier `add_match` has already committed
(each opens its own connection and commits). -/

/-- The persistence loop (`matching.py` lines 67–73) under the
failure-injecting store: each `add_match` consumes one unit of fuel and
the insert reached with no fuel left raises. -/
def add_match_loop : List MatchPair → Nat → DBState →
    Except DBState DBState
  | [], _, db => .ok db
  | _ :: _, 0, db => .error db
  | m :: rest, k + 1, db =>
    add_match_loop rest k
      (add_match db m.participant1_id m.participant2_id m.rank1 m.rank2)

/-- `innerLoop` under the failure-injecting store: the
`get_selections_by_participant(selected_id)` fetch at the head of each
iteration consumes one unit of fuel and raises when none is left; the
state update is the one of `innerLoop`. -/
def innerLoopF (sels : List Selection) (participant_id : Nat) :
    List Nat → List MatchPair × List (Nat × Nat) → Nat →
    Except Unit ((List MatchPair × List (Nat × Nat)) × Nat)
  | [], st, fuel => .ok (st, fuel)
  | _ :: _, _, 0 => .error ()
  | selected_id :: rest, st, fuel + 1 =>
    let their_selections_dict := selections_dict sels participant_id
    let reverse_selections_dict := selections_dict sels selected_id
    let st' :=
      if dictContains reverse_selections_dict participant_id then
        let pair := (min participant_id selected_id,
                     max participant_id selected_id)
        if pair ∈ st.2 then st
        else
          let rank1 :=
            if pair.1 == participant_id then
              dictGet their_selections_dict selected_id
            else dictGet reverse_selections_dict participant_id
          let rank2 :=
            if pair.1 == participant_id then
              dictGet reverse_selections_dict participant_id
            else dictGet their_selections_dict selected_id
          (st.1 ++ [⟨pair.1, pair.2, rank1, rank2⟩], pair :: st.2)
      else st
    innerLoopF sels participant_id rest st' fuel

/-- `outerLoop` under the failure-injecting store: the
`get_selections_by_participant(participant_id)` fetch for each
participant consumes one unit of fuel; the inner loop and the later
iterations consume the rest. -/
def outerLoopF (sels : List Selection) :
    List Nat → List MatchPair × List (Nat × Nat) → Nat →
    Except Unit ((List MatchPair × List (Nat × Nat)) × Nat)
  | [], st, fuel => .ok (st, fuel)
  | _ :: _, _, 0 => .error ()
  | participant_id :: rest, st, fuel + 1 =>
    match innerLoopF sels participant_id
        (dictKeys (selections_dict sels participant_id)) st fuel with
    | .error e => .error e
    | .ok (st', fuel') => outerLoopF sels rest st' fuel'

/-- Number of `get_selections_by_participant` calls the two loops of
`find_mutual_matches` perform over a given participant list: one per
participant plus one per key of that participant's selection dict. -/
def loop_calls (sels : List Selection) : List Nat → Nat
  | [] => 0
  | pid :: rest =>
    1 + (dictKeys (selections_dict sels pid)).length + loop_calls sels rest

/-- `find_mutual_matches` under the failure-injecting store: the initial
`get_all_participants` call consumes one unit of fuel, the loops one per
selection fetch.  `error` means some read raised — reads do not change
the store, so no state needs to be carried. -/
def find_mutual_matches_fallible (db : DBState) (fuel : Nat) :
    Except Unit (List MatchPair × Nat) :=
  match fuel with
  | 0 => .error ()
  | f + 1 =>
    match outerLoopF db.selections ((get_all_participants db).map (·.id))
        ([], []) f with
    | .error e => .error e
    | .ok (st, fuel') => .ok (st.1, fuel')

/-- The selection fetches `find_mutual_matches` performs on a database
state. -/
def discovery_calls (db : DBState) : Nat :=
  loop_calls db.selections ((get_all_participants db).map (·.id))

/-- Total number of store calls of one `run_matching_algorithm` run:
the clear, the participant fetch, the selection fetches, one insert per
computed match. -/
def total_store_calls (db : DBState) : Nat :=
  2 + discovery_calls db + (find_mutual_matches db).length

/-- `run_matching_algorithm` under the failure-injecting store: call 0
is `clear_matches` (raising there leaves the store untouched), call 1
is `get_all_participants`, then the selection fetches, then the
inserts.  When `failAt` is at least `total_store_calls` nothing raises
and the run returns `ok` with the count. -/
def run_matching_fallible (db : DBState) (failAt : Nat) :
    Except DBState (Nat × DBState) :=
  match failAt with
  | 0 => .error db
  | f + 1 =>
    match find_mutual_matches_fallible (clear_matches db) f with
    | .error _ => .error (clear_matches db)
    | .ok (ms, fuel) =>
      match add_match_loop ms fuel (clear_matches db) with
      | .error st => .error st
      | .ok st => .ok (ms.length, st)

/-- Participants 1–4; 1 and 2 select each other, 3 and 4 select each
other: two mutual matches. -/
def dbC8 : DBState :=
  ⟨[⟨1, "a", "male", "a@x", "t1"⟩, ⟨2, "b", "female", "b@x", "t2"⟩,
    ⟨3, "c", "male", "c@x", "t3"⟩, ⟨4, "d", "female", "d@x", "t4"⟩],
   [⟨1, 2, 1⟩, ⟨2, 1, 1⟩, ⟨3, 4, 1⟩, ⟨4, 3, 1⟩], [], 0⟩

/-! ### Concrete snapshots used by witnesses and counterexamples -/

/-- Participants 1 and 2 select each other (ranks 1 and 2). -/
def dbC1 : DBState :=
  ⟨[⟨1, "a", "male", "a@x", "t1"⟩, ⟨2, "b", "female", "b@x", "t2"⟩],
   [⟨1, 2, 1⟩, ⟨2, 1, 2⟩], [], 0⟩

/-- Participants 1 and 2 select each other, participant 1 with the
unvalidated rank 0. -/
def dbC3 : DBState :=
  ⟨[⟨1, "a", "male", "a@x", "t1"⟩, ⟨2, "b", "female", "b@x", "t2"⟩],
   [⟨1, 2, 0⟩, ⟨2, 1, 3⟩], [], 0⟩

/-- A single participant that selects itself with rank 5. -/
def dbC9 : DBState :=
  ⟨[⟨1, "a", "male", "a@x", "t1"⟩], [⟨1, 1, 5⟩], [], 0⟩

/-- Participant 1 is listed; ids 1 and 2 select each other. -/
def dbC10 : DBState :=
  ⟨[⟨1, "a", "male", "a@x", "t1"⟩], [⟨1, 2, 1⟩, ⟨2, 1, 1⟩], [], 0⟩

/-! ### Dictionary model lemmas -/

lemma dictContains_iff (d : List (Nat × Nat)) (k : Nat) :
    dictContains d k = true ↔ k ∈ dictKeys d := by
  simp [dictContains, dictKeys, List.any_eq_true, List.mem_map]

lemma dictKeys_pyDictInsert (d : List (Nat × Nat)) (k v : Nat) :
    dictKeys (pyDictInsert d k v) =
      if dictContains d k = true then dictKeys d else dictKeys d ++ [k] := by
  by_cases h : d.any (fun p => p.1 == k) = true
  · have hc : dictContains d k = true := h
    simp only [pyDictInsert, h, if_true, hc, dictKeys, List.map_map]
    refine List.map_congr_left ?_
    intro p _
    by_cases hp : p.1 = k
    · simp [hp]
    · simp [hp]
  · have hc : ¬ dictContains d k = true := h
    simp [pyDictInsert, h, hc, dictKeys]

lemma mem_pyDictInsert {x : Nat × Nat} {d : List (Nat × Nat)} {k v : Nat}
    (hx : x ∈ pyDictInsert d k v) : x ∈ d ∨ x = (k, v) := by
  unfold pyDictInsert at hx
  by_cases h : d.any (fun p => p.1 == k) = true
  · rw [if_pos h] at hx
    rcases List.mem_map.mp hx with ⟨p, hp, hfp⟩
    by_cases hk : p.1 = k
    · right
      rw [← hfp]
      simp [hk]
    · left
      rw [← hfp]
      simpa [hk] using hp
  · rw [if_neg h] at hx
    rcases List.mem_append.mp hx with h' | h'
    · exact Or.inl h'
    · exact Or.inr (by simpa using h')

lemma mem_pyDict_fold (l : List (Nat × Nat)) (acc : List (Nat × Nat))
    (x : Nat × Nat)
    (hx : x ∈ l.foldl (fun d p => pyDictInsert d p.1 p.2) acc) :
    x ∈ acc ∨ x ∈ l := by
  induction l generalizing acc with
  | nil => exact Or.inl hx
  | cons p rest ih =>
    simp only [List.foldl_cons] at hx
    rcases ih (pyDictInsert acc p.1 p.2) hx with h | h
    · rcases mem_pyDictInsert h with h' | h'
      · exact Or.inl h'
      · right
        rw [h']
        exact List.mem_cons_self p rest
    · exact Or.inr (List.mem_cons_of_mem p h)

lemma dictKeys_pyDict_fold (l acc : List (Nat × Nat)) (k : Nat) :
    k ∈ dictKeys (l.foldl (fun d p => pyDictInsert d p.1 p.2) acc) ↔
      k ∈ dictKeys acc ∨ k ∈ dictKeys l := by
  induction l generalizing acc with
  | nil => simp [dictKeys]
  | cons p rest ih =>
    simp only [List.foldl_cons]
    rw [ih, dictKeys_pyDictInsert]
    by_cases h : dictContains acc p.1 = true
    · have hk : p.1 ∈ dictKeys acc := (dictContains_iff acc p.1).mp h
      rw [if_pos h]
      simp only [dictKeys, List.map_cons, List.mem_cons]
      constructor
      · rintro (h' | h')
        · exact Or.inl h'
        · exact Or.inr (Or.inr h')
      · rintro (h' | h' | h')
        · exact Or.inl h'
        · exact Or.inl (h' ▸ hk)
        · exact Or.inr h'
    · rw [if_neg h]
      simp only [dictKeys, List.map_cons, List.mem_cons, List.mem_append,
        List.mem_singleton]
      tauto

lemma dictGet_pyDict_eq (l : List (Nat × Nat)) (k v : Nat)
    (hmem : (k, v) ∈ l) (hagree : ∀ v', (k, v') ∈ l → v' = v) :
    dictGet (pyDict l) k = v := by
  have hkey : k ∈ dictKeys (pyDict l) := by
    rw [pyDict, dictKeys_pyDict_fold]
    exact Or.inr (List.mem_map.mpr ⟨(k, v), hmem, rfl⟩)
  have hsome : ((pyDict l).find? fun p => p.1 == k).isSome := by
    rcases List.mem_map.mp hkey with ⟨p, hp, hpk⟩
    have : ∃ x ∈ pyDict l, (x.1 == k) = true := ⟨p, hp, by simp [hpk]⟩
    simpa [List.find?_isSome] using this
  obtain ⟨x, hx⟩ := Option.isSome_iff_exists.mp hsome
  have hx1 : x.1 = k := by
    have := List.find?_some hx
    simpa using this
  have hxl : x ∈ pyDict l := List.mem_of_find?_eq_some hx
  have hxl' : x ∈ l := by
    rcases mem_pyDict_fold l [] x hxl with h | h
    · simp at h
    · exact h
  have hxv : x.2 = v := by
    apply hagree
    rw [← hx1]
    exact hxl'
  simp [dictGet, hx, hxv]

/-! ### Selection-store lemmas -/

lemma mem_get_selections (sels : List Selection) (a b r : Nat) :
    (b, r) ∈ get_selections_by_participant sels a ↔
      (⟨a, b, r⟩ : Selection) ∈ sels := by
  unfold get_selections_by_participant
  rw [List.mem_map]
  constructor
  · rintro ⟨s, hs, hsr⟩
    have hs' : s ∈ sels.filter fun s => s.selector_id == a :=
      (List.perm_insertionSort _ _).mem_iff.mp hs
    rcases List.mem_filter.mp hs' with ⟨hmem, hsel⟩
    obtain ⟨x, y, z⟩ := s
    obtain ⟨hb, hr⟩ := Prod.mk.injEq .. ▸ hsr
    simp only at hb hr
    have hx : x = a := by simpa using hsel
    rw [← hx, ← hb, ← hr]
    exact hmem
  · intro hmem
    refine ⟨⟨a, b, r⟩, ?_, rfl⟩
    apply (List.perm_insertionSort _ _).mem_iff.mpr
    exact List.mem_filter.mpr ⟨hmem, by simp⟩

lemma edge_iff (sels : List Selection) (a b : Nat) :
    edge sels a b = true ↔ ∃ r, (⟨a, b, r⟩ : Selection) ∈ sels := by
  unfold edge selections_dict
  rw [dictContains_iff, pyDict, dictKeys_pyDict_fold]
  constructor
  · rintro (h | h)
    · simp [dictKeys] at h
    · rcases List.mem_map.mp h with ⟨p, hp, hpb⟩
      refine ⟨p.2, (mem_get_selections sels a b p.2).mp ?_⟩
      rw [← hpb]
      exact hp
  · rintro ⟨r, hr⟩
    exact Or.inr
      (List.mem_map.mpr ⟨(b, r), (mem_get_selections sels a b r).mpr hr, rfl⟩)

lemma dictGet_selections_dict (sels : List Selection) (a b r : Nat)
    (hu : SelUnique sels) (hr : (⟨a, b, r⟩ : Selection) ∈ sels) :
    dictGet (selections_dict sels a) b = r := by
  apply dictGet_pyDict_eq
  · exact (mem_get_selections sels a b r).mpr hr
  · intro v' hv'
    exact hu _ ((mem_get_selections sels a b v').mp hv') _ hr rfl rfl

/-! ### Loop characterization -/

lemma record_eq_mkRec (sels : List Selection) (a b : Nat) :
    (⟨min a b, max a b,
      if (min a b == a) = true then dictGet (selections_dict sels a) b
      else dictGet (selections_dict sels b) a,
      if (min a b == a) = true then dictGet (selections_dict sels b) a
      else dictGet (selections_dict sels a) b⟩ : MatchPair) =
      mkRec sels (canon a b) := by
  rcases Nat.le_total a b with h | h
  · have h1 : min a b = a := Nat.min_eq_left h
    have h2 : max a b = b := Nat.max_eq_right h
    simp [mkRec, canon, h1, h2]
  · by_cases hab : a = b
    · subst hab
      simp [mkRec, canon]
    · have h1 : min a b = b := Nat.min_eq_right h
      have h2 : max a b = a := Nat.max_eq_left h
      have h3 : (min a b == a) = false := by
        rw [h1]
        simp
        omega
      simp [mkRec, canon, h1, h2, h3]
      constructor <;> (intro hba; exact absurd hba.symm hab)

lemma innerLoop_cons (sels : List Selection) (a b : Nat) (rest : List Nat)
    (st : List MatchPair × List (Nat × Nat)) :
    innerLoop sels a (b :: rest) st =
      innerLoop sels a rest
        (if dictContains (selections_dict sels b) a = true then
          if canon a b ∈ st.2 then st
          else (st.1 ++ [mkRec sels (canon a b)], canon a b :: st.2)
        else st) := by
  by_cases hg : dictContains (selections_dict sels b) a = true
  · by_cases hp : canon a b ∈ st.2
    · have hp' : (min a b, max a b) ∈ st.2 := hp
      simp [innerLoop, hg, hp, hp', canon]
    · have hp' : ¬ (min a b, max a b) ∈ st.2 := hp
      have hrec := record_eq_mkRec sels a b
      simp only [innerLoop, hg, if_true, hp, hp', if_false, canon] at hrec ⊢
      rw [hrec]
  · simp [innerLoop, hg]

lemma innerLoop_seen (sels : List Selection) (a : Nat) (keys : List Nat) :
    ∀ (st : List MatchPair × List (Nat × Nat)) (p : Nat × Nat),
      p ∈ (innerLoop sels a keys st).2 ↔
        p ∈ st.2 ∨ ∃ b ∈ keys, edge sels b a = true ∧ p = canon a b := by
  induction keys with
  | nil => intro st p; simp [innerLoop]
  | cons b rest ih =>
    intro st p
    rw [innerLoop_cons]
    by_cases hg : dictContains (selections_dict sels b) a = true
    · have hedge : edge sels b a = true := hg
      by_cases hp : canon a b ∈ st.2
      · rw [if_pos hg, if_pos hp, ih]
        constructor
        · rintro (h | ⟨b', hb', he, hpe⟩)
          · exact Or.inl h
          · exact Or.inr ⟨b', List.mem_cons_of_mem b hb', he, hpe⟩
        · rintro (h | ⟨b', hb', he, hpe⟩)
          · exact Or.inl h
          · rcases List.mem_cons.mp hb' with rfl | hb'
            · exact Or.inl (hpe ▸ hp)
            · exact Or.inr ⟨b', hb', he, hpe⟩
      · rw [if_pos hg, if_neg hp, ih]
        simp only [List.mem_cons]
        constructor
        · rintro ((h | h) | ⟨b', hb', he, hpe⟩)
          · exact Or.inr ⟨b, Or.inl rfl, hedge, h⟩
          · exact Or.inl h
          · exact Or.inr ⟨b', Or.inr hb', he, hpe⟩
        · rintro (h | ⟨b', hb' | hb', he, hpe⟩)
          · exact Or.inl (Or.inr h)
          · exact Or.inl (Or.inl (hb' ▸ hpe))
          · exact Or.inr ⟨b', hb', he, hpe⟩
    · rw [if_neg hg, ih]
      constructor
      · rintro (h | ⟨b', hb', he, hpe⟩)
        · exact Or.inl h
        · exact Or.inr ⟨b', List.mem_cons_of_mem b hb', he, hpe⟩
      · rintro (h | ⟨b', hb', he, hpe⟩)
        · exact Or.inl h
        · rcases List.mem_cons.mp hb' with rfl | hb'
          · exact absurd he hg
          · exact Or.inr ⟨b', hb', he, hpe⟩

lemma innerLoop_fst (sels : List Selection) (a : Nat) (keys : List Nat) :
    ∀ st, st.1 = st.2.reverse.map (mkRec sels) →
      (innerLoop sels a keys st).1 =
        ((innerLoop sels a keys st).2).reverse.map (mkRec sels) := by
  induction keys with
  | nil => intro st h; simpa [innerLoop] using h
  | cons b rest ih =>
    intro st h
    rw [innerLoop_cons]
    by_cases hg : dictContains (selections_dict sels b) a = true
    · by_cases hp : canon a b ∈ st.2
      · rw [if_pos hg, if_pos hp]
        exact ih st h
      · rw [if_pos hg, if_neg hp]
        apply ih
        simp only [List.reverse_cons, List.map_append, List.map_cons,
          List.map_nil]
        rw [h]
    · rw [if_neg hg]
      exact ih st h

lemma innerLoop_nodup (sels : List Selection) (a : Nat) (keys : List Nat) :
    ∀ st, (st.2 : List (Nat × Nat)).Nodup →
      ((innerLoop sels a keys st).2).Nodup := by
  induction keys with
  | nil => intro st h; simpa [innerLoop] using h
  | cons b rest ih =>
    intro st h
    rw [innerLoop_cons]
    by_cases hg : dictContains (selections_dict sels b) a = true
    · by_cases hp : canon a b ∈ st.2
      · rw [if_pos hg, if_pos hp]
        exact ih st h
      · rw [if_pos hg, if_neg hp]
        exact ih _ (List.nodup_cons.mpr ⟨hp, h⟩)
    · rw [if_neg hg]
      exact ih st h

lemma keys_edge (sels : List Selection) (a b : Nat) :
    b ∈ dictKeys (selections_dict sels a) ↔ edge sels a b = true :=
  (dictContains_iff (selections_dict sels a) b).symm

lemma outerLoop_seen (sels : List Selection) (ps : List Nat) :
    ∀ (st : List MatchPair × List (Nat × Nat)) (p : Nat × Nat),
      p ∈ (outerLoop sels ps st).2 ↔
        p ∈ st.2 ∨ ∃ a ∈ ps, ∃ b, edge sels a b = true ∧
          edge sels b a = true ∧ p = canon a b := by
  induction ps with
  | nil => intro st p; simp [outerLoop]
  | cons a rest ih =>
    intro st p
    show p ∈ (outerLoop sels rest _).2 ↔ _
    rw [ih, innerLoop_seen]
    constructor
    · rintro ((h | ⟨b, hb, he, hpe⟩) | ⟨a', ha', b, h1, h2, hpe⟩)
      · exact Or.inl h
      · exact Or.inr ⟨a, List.mem_cons_self a rest, b,
          (keys_edge sels a b).mp hb, he, hpe⟩
      · exact Or.inr ⟨a', List.mem_cons_of_mem a ha', b, h1, h2, hpe⟩
    · rintro (h | ⟨a', ha', b, h1, h2, hpe⟩)
      · exact Or.inl (Or.inl h)
      · rcases List.mem_cons.mp ha' with rfl | ha'
        · exact Or.inl (Or.inr ⟨b, (keys_edge sels a' b).mpr h1, h2, hpe⟩)
        · exact Or.inr ⟨a', ha', b, h1, h2, hpe⟩

lemma outerLoop_fst (sels : List Selection) (ps : List Nat) :
    ∀ st, st.1 = st.2.reverse.map (mkRec sels) →
      (outerLoop sels ps st).1 =
        ((outerLoop sels ps st).2).reverse.map (mkRec sels) := by
  induction ps with
  | nil => intro st h; simpa [outerLoop] using h
  | cons a rest ih =>
    intro st h
    exact ih _ (innerLoop_fst sels a _ st h)

lemma outerLoop_nodup (sels : List Selection) (ps : List Nat) :
    ∀ st, (st.2 : List (Nat × Nat)).Nodup →
      ((outerLoop sels ps st).2).Nodup := by
  induction ps with
  | nil => intro st h; simpa [outerLoop] using h
  | cons a rest ih =>
    intro st h
    exact ih _ (innerLoop_nodup sels a _ st h)

/-- Full characterization of the algorithm's output: a record is emitted
iff some listed participant `a` and some `b` selected each other, and the
record is the canonical one for the pair `{a, b}`. -/
lemma mem_core_iff (ps : List Nat) (sels : List Selection) (m : MatchPair) :
    m ∈ find_mutual_matches_core ps sels ↔
      ∃ a ∈ ps, ∃ b, edge sels a b = true ∧ edge sels b a = true ∧
        m = mkRec sels (canon a b) := by
  unfold find_mutual_matches_core
  rw [outerLoop_fst sels ps ([], []) (by simp)]
  constructor
  · intro hm
    rcases List.mem_map.mp hm with ⟨p, hp, hmp⟩
    rw [List.mem_reverse] at hp
    rcases (outerLoop_seen sels ps ([], []) p).mp hp with h | ⟨a, ha, b, h1, h2, hpe⟩
    · simp at h
    · exact ⟨a, ha, b, h1, h2, by rw [← hmp, hpe]⟩
  · rintro ⟨a, ha, b, h1, h2, rfl⟩
    refine List.mem_map.mpr ⟨canon a b, ?_, rfl⟩
    rw [List.mem_reverse]
    exact (outerLoop_seen sels ps ([], []) (canon a b)).mpr
      (Or.inr ⟨a, ha, b, h1, h2, rfl⟩)

/-! ### Database-level helper lemmas -/

lemma mkRec_mem_sel (sels : List Selection) (hu : SelUnique sels) (l h : Nat)
    (he : edge sels l h = true) :
    (⟨l, h, dictGet (selections_dict sels l) h⟩ : Selection) ∈ sels := by
  rcases (edge_iff sels l h).mp he with ⟨r, hr⟩
  rw [dictGet_selections_dict sels l h r hu hr]
  exact hr

lemma edge_canon (sels : List Selection) (a b : Nat)
    (h1 : edge sels a b = true) (h2 : edge sels b a = true) :
    edge sels (canon a b).1 (canon a b).2 = true ∧
      edge sels (canon a b).2 (canon a b).1 = true := by
  rcases Nat.le_total a b with h | h
  · simp [canon, Nat.min_eq_left h, Nat.max_eq_right h, h1, h2]
  · simp [canon, Nat.min_eq_right h, Nat.max_eq_left h, h1, h2]

lemma minmax_cases (a b A B : Nat) (hmin : min a b = min A B)
    (hmax : max a b = max A B) :
    (a = A ∧ b = B) ∨ (a = B ∧ b = A) := by
  simp only [Nat.min_def, Nat.max_def] at hmin hmax
  split_ifs at hmin hmax <;> omega

lemma find_clear (db : DBState) :
    find_mutual_matches (clear_matches db) = find_mutual_matches db := rfl

lemma foldl_add_participants (ms : List MatchPair) (db : DBState) :
    (ms.foldl (fun d m => add_match d m.participant1_id m.participant2_id
      m.rank1 m.rank2) db).participants = db.participants := by
  induction ms generalizing db with
  | nil => rfl
  | cons m rest ih =>
    simp only [List.foldl_cons]
    rw [ih]
    rfl

lemma foldl_add_selections (ms : List MatchPair) (db : DBState) :
    (ms.foldl (fun d m => add_match d m.participant1_id m.participant2_id
      m.rank1 m.rank2) db).selections = db.selections := by
  induction ms generalizing db with
  | nil => rfl
  | cons m rest ih =>
    simp only [List.foldl_cons]
    rw [ih]
    rfl

lemma foldl_add_rows (ms : List MatchPair) (db : DBState) :
    ((ms.foldl (fun d m => add_match d m.participant1_id m.participant2_id
      m.rank1 m.rank2) db).matchRows).map stripId =
      db.matchRows.map stripId ++ ms := by
  induction ms generalizing db with
  | nil => simp
  | cons m rest ih =>
    simp only [List.foldl_cons]
    rw [ih]
    have hrow : stripId ⟨db.next_match_id, m.participant1_id,
        m.participant2_id, m.rank1, m.rank2⟩ = m := rfl
    simp [add_match, hrow]

lemma run_participants (db : DBState) :
    (run_matching_algorithm db).2.participants = db.participants :=
  foldl_add_participants _ _

lemma run_selections (db : DBState) :
    (run_matching_algorithm db).2.selections = db.selections :=
  foldl_add_selections _ _

lemma run_rows (db : DBState) :
    (((run_matching_algorithm db).2).matchRows).map stripId =
      find_mutual_matches db := by
  show ((((find_mutual_matches (clear_matches db))).foldl
      (fun d m => add_match d m.participant1_id m.participant2_id
        m.rank1 m.rank2) (clear_matches db)).matchRows).map stripId = _
  rw [foldl_add_rows, find_clear]
  simp [clear_matches]

lemma run_count (db : DBState) :
    (run_matching_algorithm db).1 = (find_mutual_matches db).length := rfl

lemma find_eq_of_fields (db db' : DBState)
    (hp : db.participants = db'.participants)
    (hs : db.selections = db'.selections) :
    find_mutual_matches db = find_mutual_matches db' := by
  unfold find_mutual_matches get_all_participants
  rw [hp, hs]

lemma core_nil_selections (ps : List Nat) :
    find_mutual_matches_core ps [] = [] := by
  unfold find_mutual_matches_core
  have h : ∀ (qs : List Nat) (st : List MatchPair × List (Nat × Nat)),
      outerLoop [] qs st = st := by
    intro qs
    induction qs with
    | nil => intro st; rfl
    | cons a rest ih => intro st; exact ih st
  rw [h]

/-! ### Claim theorems -/

/-- C1: for every snapshot of participants and selections (a database
state satisfying the schema's referential integrity — every selector id
is a listed participant, cf. the `FOREIGN KEY (selector_id)` declaration
in `init_db`), the output of `find_mutual_matches` contains the pair
`{A, B}` iff a selection `A→B` and a selection `B→A` both exist. -/
theorem C1_match_iff_mutual_selection (db : DBState)
    (href : ∀ s ∈ db.selections, ∃ p ∈ db.participants,
      p.id = s.selector_id) :
    ∀ A B : Nat,
      (∃ m ∈ find_mutual_matches db,
        m.participant1_id = min A B ∧ m.participant2_id = max A B) ↔
      ((∃ r, (⟨A, B, r⟩ : Selection) ∈ db.selections) ∧
       (∃ r, (⟨B, A, r⟩ : Selection) ∈ db.selections)) := by
  intro A B
  constructor
  · rintro ⟨m, hm, h1, h2⟩
    rcases (mem_core_iff _ _ m).mp hm with ⟨a, _, b, he1, he2, rfl⟩
    have hmin : min a b = min A B := h1
    have hmax : max a b = max A B := h2
    rcases minmax_cases a b A B hmin hmax with ⟨rfl, rfl⟩ | ⟨rfl, rfl⟩
    · exact ⟨(edge_iff _ _ _).mp he1, (edge_iff _ _ _).mp he2⟩
    · exact ⟨(edge_iff _ _ _).mp he2, (edge_iff _ _ _).mp he1⟩
  · rintro ⟨⟨r1, hr1⟩, ⟨r2, hr2⟩⟩
    refine ⟨mkRec db.selections (canon A B), ?_, rfl, rfl⟩
    apply (mem_core_iff _ _ _).mpr
    refine ⟨A, ?_, B, (edge_iff _ _ _).mpr ⟨r1, hr1⟩,
      (edge_iff _ _ _).mpr ⟨r2, hr2⟩, rfl⟩
    rcases href _ hr1 with ⟨p, hp, hpid⟩
    exact List.mem_map.mpr
      ⟨p, (List.perm_insertionSort _ _).mem_iff.mpr hp, hpid⟩

theorem C1_witness :
    (∀ s ∈ dbC1.selections, ∃ p ∈ dbC1.participants,
      p.id = s.selector_id) ∧
    ((∃ m ∈ find_mutual_matches dbC1,
        m.participant1_id = min 1 2 ∧ m.participant2_id = max 1 2) ↔
      ((∃ r, (⟨1, 2, r⟩ : Selection) ∈ dbC1.selections) ∧
       (∃ r, (⟨2, 1, r⟩ : Selection) ∈ dbC1.selections))) :=
  ⟨by decide, C1_match_iff_mutual_selection dbC1 (by decide) 1 2⟩

/-- C2: the output never contains the same unordered (canonical) pair
twice, whatever the participant processing order and whatever the
selections — stated for an arbitrary participant list and for the
database-level function. -/
theorem C2_no_duplicate_pairs :
    (∀ (ps : List Nat) (sels : List Selection),
      ((find_mutual_matches_core ps sels).map
        fun m => (m.participant1_id, m.participant2_id)).Nodup) ∧
    ∀ db : DBState,
      ((find_mutual_matches db).map
        fun m => (m.participant1_id, m.participant2_id)).Nodup := by
  have hcore : ∀ (ps : List Nat) (sels : List Selection),
      ((find_mutual_matches_core ps sels).map
        fun m => (m.participant1_id, m.participant2_id)).Nodup := by
    intro ps sels
    unfold find_mutual_matches_core
    rw [outerLoop_fst sels ps ([], []) (by simp), List.map_map]
    have hfun : ((fun m : MatchPair =>
        (m.participant1_id, m.participant2_id)) ∘ mkRec sels) =
        fun p : Nat × Nat => p := by
      funext p
      rfl
    rw [hfun, List.map_id', List.nodup_reverse]
    exact outerLoop_nodup sels ps ([], []) (by simp)
  exact ⟨hcore, fun db => hcore _ _⟩

/-- C3: every emitted record is canonically ordered
(`participant1_id ≤ participant2_id`, equality only for self-pairs), and
its two ranks are copied through unchanged from the stored selections:
`rank1` is the rank the lower id assigned to the higher and `rank2` the
converse — rank 0 included, since membership in the stored selection list
is asserted for whatever rank value is stored, with no validation. -/
theorem C3_canonical_ranks (db : DBState) (m : MatchPair)
    (hu : SelUnique db.selections) (hm : m ∈ find_mutual_matches db) :
    m.participant1_id ≤ m.participant2_id ∧
    (⟨m.participant1_id, m.participant2_id, m.rank1⟩ : Selection) ∈
      db.selections ∧
    (⟨m.participant2_id, m.participant1_id, m.rank2⟩ : Selection) ∈
      db.selections := by
  rcases (mem_core_iff _ _ m).mp hm with ⟨a, _, b, he1, he2, rfl⟩
  obtain ⟨hlow, hhigh⟩ := edge_canon db.selections a b he1 he2
  refine ⟨?_, ?_, ?_⟩
  · show (canon a b).1 ≤ (canon a b).2
    exact min_le_max
  · exact mkRec_mem_sel db.selections hu (canon a b).1 (canon a b).2 hlow
  · exact mkRec_mem_sel db.selections hu (canon a b).2 (canon a b).1 hhigh

theorem C3_witness :
    SelUnique dbC3.selections ∧
    (⟨1, 2, 0, 3⟩ : MatchPair) ∈ find_mutual_matches dbC3 ∧
    ((1 : Nat) ≤ 2 ∧
     (⟨1, 2, 0⟩ : Selection) ∈ dbC3.selections ∧
     (⟨2, 1, 3⟩ : Selection) ∈ dbC3.selections) :=
  ⟨by decide, by decide,
    C3_canonical_ranks dbC3 ⟨1, 2, 0, 3⟩ (by decide) (by decide)⟩

/-- C6: permuting the participant list does not change the set of
emitted records (pairs together with their rank1/rank2 values). -/
theorem C6_order_invariant (ps ps' : List Nat) (sels : List Selection)
    (hperm : ps.Perm ps') (m : MatchPair) :
    m ∈ find_mutual_matches_core ps sels ↔
      m ∈ find_mutual_matches_core ps' sels := by
  rw [mem_core_iff, mem_core_iff]
  constructor
  · rintro ⟨a, ha, hrest⟩
    exact ⟨a, hperm.mem_iff.mp ha, hrest⟩
  · rintro ⟨a, ha, hrest⟩
    exact ⟨a, hperm.mem_iff.mpr ha, hrest⟩

theorem C6_witness :
    List.Perm [1, 2] [2, 1] ∧
    ((⟨1, 2, 1, 2⟩ : MatchPair) ∈
        find_mutual_matches_core [1, 2] [⟨1, 2, 1⟩, ⟨2, 1, 2⟩] ↔
      (⟨1, 2, 1, 2⟩ : MatchPair) ∈
        find_mutual_matches_core [2, 1] [⟨1, 2, 1⟩, ⟨2, 1, 2⟩]) :=
  ⟨by decide,
    C6_order_invariant [1, 2] [2, 1] [⟨1, 2, 1⟩, ⟨2, 1, 2⟩] (by decide)
      ⟨1, 2, 1, 2⟩⟩

/-- C9: a listed participant `A` with a stored self-selection `(A→A)`
with rank `r` yields the self-pair record
`⟨A, A, r, r⟩` in the output — self-selection is not filtered. -/
theorem C9_self_pair (db : DBState) (A r : Nat)
    (hu : SelUnique db.selections)
    (hA : ∃ p ∈ db.participants, p.id = A)
    (hsel : (⟨A, A, r⟩ : Selection) ∈ db.selections) :
    (⟨A, A, r, r⟩ : MatchPair) ∈ find_mutual_matches db := by
  unfold find_mutual_matches
  apply (mem_core_iff _ _ _).mpr
  have he : edge db.selections A A = true := (edge_iff _ _ _).mpr ⟨r, hsel⟩
  refine ⟨A, ?_, A, he, he, ?_⟩
  · rcases hA with ⟨p, hp, hpid⟩
    exact List.mem_map.mpr
      ⟨p, (List.perm_insertionSort _ _).mem_iff.mpr hp, hpid⟩
  · have hc : canon A A = (A, A) := by simp [canon]
    rw [hc]
    show (⟨A, A, r, r⟩ : MatchPair) =
      ⟨A, A, dictGet (selections_dict db.selections A) A,
        dictGet (selections_dict db.selections A) A⟩
    rw [dictGet_selections_dict db.selections A A r hu hsel]

theorem C9_witness :
    SelUnique dbC9.selections ∧
    (∃ p ∈ dbC9.participants, p.id = 1) ∧
    (⟨1, 1, 5⟩ : Selection) ∈ dbC9.selections ∧
    (⟨1, 1, 5, 5⟩ : MatchPair) ∈ find_mutual_matches dbC9 :=
  ⟨by decide, by decide, by decide,
    C9_self_pair dbC9 1 5 (by decide) (by decide) (by decide)⟩

/-- C10: a pair appears in the output only if at least one of its two
ids belongs to a listed participant; a mutually-selecting pair of ids
neither of which is listed produces no match (here ids 1 and 2 select
each other but only id 3 is listed), so the iff-invariant of C1 needs
the every-selector-is-listed precondition. -/
theorem C10_selector_must_be_listed :
    (∀ (db : DBState) (m : MatchPair), m ∈ find_mutual_matches db →
      (∃ p ∈ db.participants, p.id = m.participant1_id) ∨
      (∃ p ∈ db.participants, p.id = m.participant2_id)) ∧
    find_mutual_matches_core [3] [⟨1, 2, 1⟩, ⟨2, 1, 1⟩] = [] := by
  constructor
  · intro db m hm
    rcases (mem_core_iff _ _ m).mp hm with ⟨a, ha, b, _, _, rfl⟩
    rcases List.mem_map.mp ha with ⟨p, hp, hpid⟩
    have hp' : p ∈ db.participants :=
      (List.perm_insertionSort _ _).mem_iff.mp hp
    rcases Nat.le_total a b with h | h
    · left
      exact ⟨p, hp', by
        show p.id = (canon a b).1
        rw [hpid]
        simp [canon, Nat.min_eq_left h]⟩
    · right
      exact ⟨p, hp', by
        show p.id = (canon a b).2
        rw [hpid]
        simp [canon, Nat.max_eq_left h]⟩
  · decide

theorem C10_witness :
    (∃ p ∈ dbC10.participants, p.id = 1) ∨
    (∃ p ∈ dbC10.participants, p.id = 2) :=
  C10_selector_must_be_listed.1 dbC10 ⟨1, 2, 1, 1⟩ (by decide)

/-- C4: running the full run-matching operation twice in a row yields
the same count and the same stored match set (rows compared with their
autoincrement ids stripped, since those differ between runs). -/
theorem C4_idempotent :
    ∀ db : DBState,
      (run_matching_algorithm db).1 =
        (run_matching_algorithm (run_matching_algorithm db).2).1 ∧
      (((run_matching_algorithm db).2).matchRows).map stripId =
        (((run_matching_algorithm
          (run_matching_algorithm db).2).2).matchRows).map stripId := by
  intro db
  have hfind : find_mutual_matches (run_matching_algorithm db).2 =
      find_mutual_matches db :=
    find_eq_of_fields _ _ (run_participants db) (run_selections db)
  constructor
  · rw [run_count, run_count, hfind]
  · rw [run_rows, run_rows, hfind]

/-- C5: after a run, the store holds exactly the pairs computed in this
run (prior match rows are discarded, not merged), participants and
selections are untouched, and a run over a snapshot whose selections
have been cleared stores zero matches even when prior matches existed. -/
theorem C5_full_replace :
    ∀ db : DBState,
      (run_matching_algorithm db).2.participants = db.participants ∧
      (run_matching_algorithm db).2.selections = db.selections ∧
      (((run_matching_algorithm db).2).matchRows).map stripId =
        find_mutual_matches db ∧
      ((run_matching_algorithm { db with selections := [] }).2).matchRows
        = [] := by
  intro db
  refine ⟨run_participants db, run_selections db, run_rows db, ?_⟩
  have hfind : find_mutual_matches { db with selections := [] } = [] :=
    core_nil_selections _
  have h := run_rows { db with selections := [] }
  rw [hfind] at h
  exact List.map_eq_nil_iff.mp h

/-- C7: the returned integer equals the number of match rows created
(and stored) by this run, and it is zero exactly when no mutual pair was
found — a normal return value, not an error. -/
theorem C7_count_semantics :
    ∀ db : DBState,
      (run_matching_algorithm db).1 =
        ((run_matching_algorithm db).2.matchRows).length ∧
      ((run_matching_algorithm db).1 = 0 ↔
        find_mutual_matches db = []) := by
  intro db
  constructor
  · have h : ((run_matching_algorithm db).2.matchRows).length =
        (find_mutual_matches db).length := by
      rw [← run_rows db, List.length_map]
    rw [h, run_count]
  · rw [run_count, List.length_eq_zero]

lemma add_match_loop_err (ms : List MatchPair) (k : Nat) (db : DBState)
    (hk : k < ms.length) :
    ∃ st, add_match_loop ms k db = .error st ∧
      st.participants = db.participants ∧
      st.selections = db.selections ∧
      st.matchRows.map stripId = db.matchRows.map stripId ++ ms.take k := by
  induction ms generalizing k db with
  | nil => simp at hk
  | cons m rest ih =>
    cases k with
    | zero => exact ⟨db, rfl, rfl, rfl, by simp⟩
    | succ k =>
      have hk' : k < rest.length := by simpa using hk
      obtain ⟨st, h1, h2, h3, h4⟩ := ih k
        (add_match db m.participant1_id m.participant2_id m.rank1 m.rank2)
        hk'
      refine ⟨st, h1, h2, h3, ?_⟩
      rw [h4]
      have hrow : stripId ⟨db.next_match_id, m.participant1_id,
          m.participant2_id, m.rank1, m.rank2⟩ = m := rfl
      simp [add_match, hrow, List.take_succ_cons]

lemma add_match_loop_ok (ms : List MatchPair) :
    ∀ (fuel : Nat) (db : DBState), ms.length ≤ fuel →
      add_match_loop ms fuel db =
        .ok (ms.foldl (fun d m => add_match d m.participant1_id
          m.participant2_id m.rank1 m.rank2) db) := by
  induction ms with
  | nil => intro fuel db _; rfl
  | cons m rest ih =>
    intro fuel db h
    cases fuel with
    | zero => simp only [List.length_cons] at h; omega
    | succ f =>
      show add_match_loop rest f
        (add_match db m.participant1_id m.participant2_id
          m.rank1 m.rank2) = _
      rw [ih f _ (by simp only [List.length_cons] at h; omega)]
      rfl

lemma innerLoopF_cons (sels : List Selection) (a b : Nat) (rest : List Nat)
    (st : List MatchPair × List (Nat × Nat)) (fuel : Nat) :
    innerLoopF sels a (b :: rest) st (fuel + 1) =
      innerLoopF sels a rest
        (if dictContains (selections_dict sels b) a = true then
          if canon a b ∈ st.2 then st
          else (st.1 ++ [mkRec sels (canon a b)], canon a b :: st.2)
        else st) fuel := by
  by_cases hg : dictContains (selections_dict sels b) a = true
  · by_cases hp : canon a b ∈ st.2
    · have hp' : (min a b, max a b) ∈ st.2 := hp
      simp [innerLoopF, hg, hp, hp', canon]
    · have hp' : ¬ (min a b, max a b) ∈ st.2 := hp
      have hrec := record_eq_mkRec sels a b
      simp only [innerLoopF, hg, if_true, hp, hp', if_false, canon] at hrec ⊢
      rw [hrec]
  · simp [innerLoopF, hg]

lemma innerLoopF_ok (sels : List Selection) (a : Nat) :
    ∀ (keys : List Nat) (st : List MatchPair × List (Nat × Nat))
      (fuel : Nat), keys.length ≤ fuel →
      innerLoopF sels a keys st fuel =
        .ok (innerLoop sels a keys st, fuel - keys.length) := by
  intro keys
  induction keys with
  | nil => intro st fuel _; simp [innerLoopF, innerLoop]
  | cons b rest ih =>
    intro st fuel h
    cases fuel with
    | zero => simp only [List.length_cons] at h; omega
    | succ f =>
      rw [innerLoopF_cons, innerLoop_cons,
        ih _ f (by simp only [List.length_cons] at h; omega)]
      simp [Nat.succ_sub_succ]

lemma innerLoopF_err (sels : List Selection) (a : Nat) :
    ∀ (keys : List Nat) (st : List MatchPair × List (Nat × Nat))
      (fuel : Nat), fuel < keys.length →
      innerLoopF sels a keys st fuel = .error () := by
  intro keys
  induction keys with
  | nil => intro st fuel h; simp at h
  | cons b rest ih =>
    intro st fuel h
    cases fuel with
    | zero => rfl
    | succ f =>
      rw [innerLoopF_cons]
      exact ih _ f (by simp only [List.length_cons] at h; omega)

lemma outerLoopF_cons (sels : List Selection) (a : Nat) (rest : List Nat)
    (st : List MatchPair × List (Nat × Nat)) (f : Nat) :
    outerLoopF sels (a :: rest) st (f + 1) =
      match innerLoopF sels a (dictKeys (selections_dict sels a)) st f with
      | .error e => .error e
      | .ok (st', fuel') => outerLoopF sels rest st' fuel' := rfl

lemma outerLoopF_ok (sels : List Selection) :
    ∀ (ps : List Nat) (st : List MatchPair × List (Nat × Nat))
      (fuel : Nat), loop_calls sels ps ≤ fuel →
      outerLoopF sels ps st fuel =
        .ok (outerLoop sels ps st, fuel - loop_calls sels ps) := by
  intro ps
  induction ps with
  | nil => intro st fuel _; simp [outerLoopF, outerLoop, loop_calls]
  | cons a rest ih =>
    intro st fuel h
    simp only [loop_calls] at h
    cases fuel with
    | zero => omega
    | succ f =>
      have hk : (dictKeys (selections_dict sels a)).length ≤ f := by omega
      have hinner := innerLoopF_ok sels a
        (dictKeys (selections_dict sels a)) st f hk
      simp only [loop_calls, outerLoopF_cons, hinner]
      rw [ih _ _ (by omega)]
      have harith : f - (dictKeys (selections_dict sels a)).length -
          loop_calls sels rest =
          f + 1 - (1 + (dictKeys (selections_dict sels a)).length +
            loop_calls sels rest) := by omega
      rw [harith]
      rfl

lemma outerLoopF_err (sels : List Selection) :
    ∀ (ps : List Nat) (st : List MatchPair × List (Nat × Nat))
      (fuel : Nat), fuel < loop_calls sels ps →
      outerLoopF sels ps st fuel = .error () := by
  intro ps
  induction ps with
  | nil => intro st fuel h; simp [loop_calls] at h
  | cons a rest ih =>
    intro st fuel h
    simp only [loop_calls] at h
    cases fuel with
    | zero => rfl
    | succ f =>
      by_cases hk : (dictKeys (selections_dict sels a)).length ≤ f
      · have hinner := innerLoopF_ok sels a
          (dictKeys (selections_dict sels a)) st f hk
        simp only [outerLoopF_cons, hinner]
        exact ih _ _ (by omega)
      · have hinner := innerLoopF_err sels a
          (dictKeys (selections_dict sels a)) st f (by omega)
        simp only [outerLoopF_cons, hinner]

lemma find_fallible_ok (db : DBState) (fuel : Nat)
    (h : discovery_calls db < fuel) :
    find_mutual_matches_fallible db fuel =
      .ok (find_mutual_matches db, fuel - 1 - discovery_calls db) := by
  cases fuel with
  | zero => omega
  | succ f =>
    have h' : loop_calls db.selections
        ((get_all_participants db).map (·.id)) ≤ f := by
      simp only [discovery_calls] at h
      omega
    have houter := outerLoopF_ok db.selections
      ((get_all_participants db).map (·.id)) ([], []) f h'
    simp only [find_mutual_matches_fallible, houter]
    have harith : f - loop_calls db.selections
        ((get_all_participants db).map (·.id)) =
        f + 1 - 1 - discovery_calls db := by
      simp only [discovery_calls]
      omega
    rw [harith]
    rfl

lemma find_fallible_err (db : DBState) (fuel : Nat)
    (h : fuel < 1 + discovery_calls db) :
    find_mutual_matches_fallible db fuel = .error () := by
  cases fuel with
  | zero => rfl
  | succ f =>
    have h' : f < loop_calls db.selections
        ((get_all_participants db).map (·.id)) := by
      simp only [discovery_calls] at h
      omega
    have houter := outerLoopF_err db.selections
      ((get_all_participants db).map (·.id)) ([], []) f h'
    simp only [find_mutual_matches_fallible, houter]

lemma run_fallible_disc_err (db : DBState) (failAt : Nat)
    (h0 : 0 < failAt) (h : failAt < 2 + discovery_calls db) :
    run_matching_fallible db failAt = Except.error (clear_matches db) := by
  cases failAt with
  | zero => omega
  | succ f =>
    have hdc : discovery_calls (clear_matches db) = discovery_calls db := rfl
    have herr : find_mutual_matches_fallible (clear_matches db) f =
        .error () :=
      find_fallible_err (clear_matches db) f (by omega)
    simp only [run_matching_fallible, herr]

lemma run_fallible_insert_err (db : DBState) (k : Nat)
    (hk : k < (find_mutual_matches db).length) :
    ∃ st, run_matching_fallible db (2 + discovery_calls db + k) =
        Except.error st ∧
      st.participants = db.participants ∧
      st.selections = db.selections ∧
      st.matchRows.map stripId = (find_mutual_matches db).take k := by
  obtain ⟨st, h1, h2, h3, h4⟩ :=
    add_match_loop_err (find_mutual_matches (clear_matches db)) k
      (clear_matches db) (by rw [find_clear]; exact hk)
  refine ⟨st, ?_, ?_, ?_, ?_⟩
  · have hdc : discovery_calls (clear_matches db) = discovery_calls db := rfl
    have hfuel : (1 + discovery_calls db + k) - 1 -
        discovery_calls (clear_matches db) = k := by omega
    have hok : find_mutual_matches_fallible (clear_matches db)
        (1 + discovery_calls db + k) =
        .ok (find_mutual_matches (clear_matches db), k) := by
      rw [find_fallible_ok (clear_matches db) _ (by omega), hfuel]
    have hsucc : 2 + discovery_calls db + k =
        (1 + discovery_calls db + k) + 1 := by omega
    rw [hsucc]
    simp only [run_matching_fallible, hok, h1]
  · rw [h2]
    rfl
  · rw [h3]
    rfl
  · rw [h4, find_clear]
    simp [clear_matches]

lemma run_fallible_ok (db : DBState) (failAt : Nat)
    (h : total_store_calls db ≤ failAt) :
    run_matching_fallible db failAt =
      Except.ok (run_matching_algorithm db) := by
  have htot : 2 + discovery_calls db + (find_mutual_matches db).length ≤
      failAt := h
  cases failAt with
  | zero => omega
  | succ f =>
    have hdc : discovery_calls (clear_matches db) = discovery_calls db := rfl
    have hok : find_mutual_matches_fallible (clear_matches db) f =
        .ok (find_mutual_matches (clear_matches db),
          f - 1 - discovery_calls (clear_matches db)) :=
      find_fallible_ok (clear_matches db) f (by omega)
    have hlen : (find_mutual_matches (clear_matches db)).length ≤
        f - 1 - discovery_calls (clear_matches db) := by
      rw [find_clear, hdc]
      omega
    have hins := add_match_loop_ok (find_mutual_matches (clear_matches db))
      (f - 1 - discovery_calls (clear_matches db)) (clear_matches db) hlen
    simp only [run_matching_fallible, hok, hins]
    rfl

/-- C8 counterexample to the "no half-written match set" / all-or-nothing
part of the claim: on `dbC8` (two mutual pairs) a failure at store call
11 — the second `add_match`, after the clear, the participant fetch, the
8 selection fetches and the first insert — leaves the match store with
exactly one committed row, a partially persisted state between zero and
the two computed matches. -/
theorem C8_counterexample :
    run_matching_fallible dbC8 11 =
      Except.error
        ⟨dbC8.participants, dbC8.selections, [⟨0, 1, 2, 1, 1⟩], 1⟩ ∧
    (find_mutual_matches dbC8).length = 2 := by
  constructor
  · rfl
  · decide

/-- C8 amended: any store-access failure during the pair-discovery or
persistence phase (all store calls are numbered in execution order and
call `failAt` raises) aborts the whole operation with that failure — the
result is an `error`, no count is returned.  But the clear-then-insert
sequence is not all-or-nothing: the store keeps exactly what was
committed before the raise — the prior matches when the initial clear
itself raises, zero matches for a failure during pair discovery, and the
first `k` computed matches when the `k`-th insert raises.  When no call
raises the run returns `ok` with the count, agreeing with
`run_matching_algorithm`. -/
theorem C8_store_failure_semantics :
    ∀ (db : DBState) (failAt : Nat),
      (failAt < total_store_calls db →
        ∃ st, run_matching_fallible db failAt = Except.error st) ∧
      (failAt = 0 → run_matching_fallible db failAt = Except.error db) ∧
      (0 < failAt → failAt < 2 + discovery_calls db →
        run_matching_fallible db failAt =
          Except.error (clear_matches db)) ∧
      (∀ k, k < (find_mutual_matches db).length →
        failAt = 2 + discovery_calls db + k →
        ∃ st, run_matching_fallible db failAt = Except.error st ∧
          st.participants = db.participants ∧
          st.selections = db.selections ∧
          st.matchRows.map stripId = (find_mutual_matches db).take k) ∧
      (total_store_calls db ≤ failAt →
        run_matching_fallible db failAt =
          Except.ok (run_matching_algorithm db)) := by
  intro db failAt
  refine ⟨?_, ?_, ?_, ?_, ?_⟩
  · intro h
    rcases Nat.eq_zero_or_pos failAt with rfl | h0
    · exact ⟨db, rfl⟩
    · rcases Nat.lt_or_ge failAt (2 + discovery_calls db) with h2 | h3
      · exact ⟨clear_matches db, run_fallible_disc_err db failAt h0 h2⟩
      · have hk : failAt - (2 + discovery_calls db) <
            (find_mutual_matches db).length := by
          simp only [total_store_calls] at h
          omega
        obtain ⟨st, hst, -, -, -⟩ := run_fallible_insert_err db
          (failAt - (2 + discovery_calls db)) hk
        refine ⟨st, ?_⟩
        have : 2 + discovery_calls db +
            (failAt - (2 + discovery_calls db)) = failAt := by omega
        rwa [this] at hst
  · rintro rfl
    rfl
  · exact run_fallible_disc_err db failAt
  · rintro k hk rfl
    exact run_fallible_insert_err db k hk
  · exact run_fallible_ok db failAt

theorem C8_witness :
    (1 : Nat) < (find_mutual_matches dbC8).length ∧
    (11 : Nat) = 2 + discovery_calls dbC8 + 1 ∧
    ∃ st, run_matching_fallible dbC8 11 = Except.error st ∧
      st.participants = dbC8.participants ∧
      st.selections = dbC8.selections ∧
      st.matchRows.map stripId = (find_mutual_matches dbC8).take 1 :=
  ⟨by decide, by decide,
    (C8_store_failure_semantics dbC8 11).2.2.2.1 1 (by decide) (by decide)⟩

example :
    find_mutual_matches_core [1, 2]
      [⟨1, 2, 1⟩, ⟨2, 1, 1⟩] = [⟨1, 2, 1, 1⟩] := by decide

example :
    find_mutual_matches_core [1, 2, 3]
      [⟨1, 2, 1⟩, ⟨2, 1, 2⟩, ⟨2, 3, 1⟩, ⟨3, 2, 1⟩] =
      [⟨1, 2, 1, 2⟩, ⟨2, 3, 1, 1⟩] := by decide

example :
    find_mutual_matches_core [1, 2] [⟨1, 2, 1⟩] = [] := by decide

example :
    find_mutual_matches_core [3] [⟨1, 2, 1⟩, ⟨2, 1, 1⟩] = [] := by decide

example :
    find_mutual_matches_core [2, 1]
      [⟨1, 2, 3⟩, ⟨2, 1, 4⟩] = [⟨1, 2, 3, 4⟩] := by decide

example :
    find_mutual_matches_core [1] [⟨1, 1, 5⟩] = [⟨1, 1, 5, 5⟩] := by decide
